import Mathlib

/-!
Shallow embedding of the audio-effects core of the `ase-2024` repository
(src/ring_buffer.rs, src/comb_filter.rs, src/lfo.rs, src/vibrato.rs).

Conventions of the embedding:
* Rust `f32` samples and parameters are modelled as `ℚ` (exact arithmetic);
  `usize` is modelled as `ℕ`.
* Rust `expr as usize` on a float truncates toward zero and saturates
  negative values at 0; this is `ratToUsize`.
* `f32::round` rounds half away from zero; this is `rustRound`.
* Rust methods taking `&mut self` are modelled as functions returning the
  updated structure (paired with the return value where there is one).
* Indexing a `Vec` is modelled with `List.getD _ _ 0`; in the source every
  index is reduced `mod capacity` first, so inside the capacity-positive
  states the claims talk about, the default is never consulted.
* `LFO::new` fills its wavetable with `sin((i / size) * 2π)` computed in
  `f32`; the transcendental table values are abstracted as a parameter
  `sinq : ℕ → ℚ` (index ↦ the f32 value computed by the source); no claim
  depends on the concrete table values.
-/

/-- Rust `q as usize` for a float `q`: truncation toward zero, saturating
negatives at 0 (the `usize::MAX` saturation is irrelevant at the sizes used). -/
def ratToUsize (q : ℚ) : ℕ := (⌊q⌋).toNat

/-- Rust `f32::round`: round half away from zero. -/
def rustRound (q : ℚ) : ℤ := if 0 ≤ q then ⌊q + 1/2⌋ else ⌈q - 1/2⌉

/-- `RingBuffer<f32>` from src/ring_buffer.rs. -/
structure RingBuffer where
  buffer : List ℚ
  read_index : ℕ
  write_index : ℕ
  capacity : ℕ
  size : ℕ
  deriving Repr, DecidableEq

namespace RingBuffer

/-- `RingBuffer::new(length)`. -/
def new (length : ℕ) : RingBuffer :=
  { buffer := List.replicate length 0
    read_index := 0
    write_index := 0
    capacity := length
    size := 0 }

/-- `RingBuffer::reset`. -/
def reset (rb : RingBuffer) : RingBuffer :=
  { rb with
    read_index := 0
    write_index := 0
    size := 0
    buffer := List.replicate rb.buffer.length 0 }

/-- `RingBuffer::peek`: the value at `read_index`, no mutation. -/
def peek (rb : RingBuffer) : ℚ :=
  rb.buffer.getD rb.read_index 0

/-- `RingBuffer::push`. -/
def push (rb : RingBuffer) (value : ℚ) : RingBuffer :=
  let buf := rb.buffer.set rb.write_index value
  if rb.size = rb.capacity then
    { rb with
      buffer := buf
      read_index := (rb.read_index + 1) % rb.capacity
      write_index := (rb.write_index + 1) % rb.capacity }
  else
    { rb with
      buffer := buf
      size := rb.size + 1
      write_index := (rb.write_index + 1) % rb.capacity }

/-- `RingBuffer::pop`: returns the popped value (0 on empty) and the new state. -/
def pop (rb : RingBuffer) : ℚ × RingBuffer :=
  if rb.size = 0 then
    (0, rb)
  else
    (rb.buffer.getD rb.read_index 0,
     { rb with
       read_index := (rb.read_index + 1) % rb.capacity
       size := rb.size - 1 })

/-- `RingBuffer::get(offset)`: read at `(read_index + offset) % capacity`. -/
def get (rb : RingBuffer) (offset : ℕ) : ℚ :=
  rb.buffer.getD ((rb.read_index + offset) % rb.capacity) 0

/-- Modelled from the spec: `RingBuffer::get_frac` is called by
`Vibrato::process_sample` in src/vibrato.rs but its definition is missing from
src/ring_buffer.rs. Following spec §4.1: `i0 = floor(offset) mod capacity`,
`i1 = (i0+1) mod capacity`, `frac = offset - floor(offset)`; return
`(1 - frac) * buffer[i0] + frac * buffer[i1]`, both reads relative to
`read_index` (i.e. through `get`). -/
def get_frac (rb : RingBuffer) (offset : ℚ) : ℚ :=
  let i0 := (Int.toNat ⌊offset⌋) % rb.capacity
  let i1 := (i0 + 1) % rb.capacity
  let frac := offset - ⌊offset⌋
  (1 - frac) * rb.get i0 + frac * rb.get i1

/-- The logical queue held by the buffer: the `size` entries starting at
`read_index`. -/
def toQueue (rb : RingBuffer) : List ℚ :=
  (List.range rb.size).map rb.get

/-- Representation invariant maintained by `new`, `push` and `pop`. -/
def Inv (rb : RingBuffer) : Prop :=
  rb.buffer.length = rb.capacity ∧ 0 < rb.capacity ∧ rb.size ≤ rb.capacity ∧
  rb.read_index < rb.capacity ∧
  rb.write_index = (rb.read_index + rb.size) % rb.capacity

/-- Push a whole block of values, oldest first. -/
def pushAll (rb : RingBuffer) (vs : List ℚ) : RingBuffer :=
  vs.foldl push rb

/-- Pop `n` values, collecting them in pop order. -/
def popN (rb : RingBuffer) : ℕ → List ℚ × RingBuffer
  | 0 => ([], rb)
  | n + 1 =>
    let p := rb.pop
    let rest := p.2.popN n
    (p.1 :: rest.1, rest.2)

/-- `RingBuffer::len`. -/
def len (rb : RingBuffer) : ℕ := rb.size

end RingBuffer

/-- Thread a per-sample step with state through a list of samples, collecting
the outputs (the shape of the inner per-sample loops of both effects). -/
def mapStateList {σ : Type} (f : ℚ → σ → ℚ × σ) : List ℚ → σ → List ℚ × σ
  | [], s => ([], s)
  | x :: xs, s =>
    let ys := f x s
    let rest := mapStateList f xs ys.2
    (ys.1 :: rest.1, rest.2)

/-- Pair input channels positionally with per-channel states (the shape of the
outer per-channel loops of both effects). States beyond the input channel
count are untouched; the source panics when the input has more channels than
there are states, a case no claim exercises. -/
def zipState {σ : Type} (g : List ℚ → σ → List ℚ × σ) :
    List (List ℚ) → List σ → List (List ℚ) × List σ
  | [], ss => ([], ss)
  | _ :: _, [] => ([], [])
  | ch :: chs, s :: ss =>
    let o := g ch s
    let rest := zipState g chs ss
    (o.1 :: rest.1, o.2 :: rest.2)

/-- Time-concatenation of multichannel blocks (channelwise append), for a
fixed channel count. -/
def joinBlocks (nch : ℕ) (blocks : List (List (List ℚ))) : List (List ℚ) :=
  blocks.foldr (fun b acc => List.zipWith (fun x y => x ++ y) b acc)
    (List.replicate nch [])

/-- Sequential block-by-block processing of the generic per-channel loop. -/
def zipStateBlocks {σ : Type} (f : ℚ → σ → ℚ × σ) :
    List (List (List ℚ)) → List σ → List (List (List ℚ)) × List σ
  | [], ss => ([], ss)
  | b :: bs, ss =>
    let r := zipState (mapStateList f) b ss
    let rest := zipStateBlocks f bs r.2
    (r.1 :: rest.1, rest.2)

/-- `FilterType` from src/comb_filter.rs. -/
inductive FilterType where
  | FIR
  | IIR
  deriving Repr, DecidableEq

/-- `FilterParam` from src/comb_filter.rs. -/
inductive FilterParam where
  | Gain
  | Delay
  deriving Repr, DecidableEq

/-- `Error` from src/comb_filter.rs. -/
inductive CombError where
  | InvalidValue (param : FilterParam) (value : ℚ)
  deriving Repr, DecidableEq

/-- `CombFilter` from src/comb_filter.rs. -/
structure CombFilter where
  filter_type : FilterType
  delay_lines : List RingBuffer
  gain : ℚ
  sample_rate : ℚ
  buffer : List (List ℚ)
  buffer_index : ℕ
  deriving Repr, DecidableEq

namespace CombFilter

/-- `CombFilter::new`. -/
def new (filter_type : FilterType) (max_delay_secs sample_rate_hz : ℚ)
    (num_channels : ℕ) (gain : ℚ) : CombFilter :=
  let delay_samples := ratToUsize (max_delay_secs * sample_rate_hz)
  { filter_type
    delay_lines := List.replicate num_channels (RingBuffer.new delay_samples)
    gain
    sample_rate := sample_rate_hz
    buffer := List.replicate num_channels (List.replicate delay_samples 0)
    buffer_index := 0 }

/-- `CombFilter::reset`: zeroes the (otherwise unused) scratch `buffer` field
and `buffer_index`; the delay lines are not touched by the source. -/
def reset (f : CombFilter) : CombFilter :=
  { f with
    buffer := f.buffer.map (fun ch => List.replicate ch.length 0)
    buffer_index := 0 }

/-- The per-sample body of `CombFilter::process`: peek the delay line, form
`input + gain * delayed`, then push the input (FIR) or the output (IIR). -/
def combStep (filter_type : FilterType) (gain : ℚ) (input_sample : ℚ)
    (dl : RingBuffer) : ℚ × RingBuffer :=
  let delayed_sample := dl.peek
  let output_sample := input_sample + gain * delayed_sample
  (output_sample,
   match filter_type with
   | FilterType.FIR => dl.push input_sample
   | FilterType.IIR => dl.push output_sample)

/-- One channel of `CombFilter::process`. -/
def processChannel (filter_type : FilterType) (gain : ℚ)
    (samples : List ℚ) (dl : RingBuffer) : List ℚ × RingBuffer :=
  mapStateList (combStep filter_type gain) samples dl

/-- `CombFilter::process`: per channel, per sample, with the delay lines as
the only state; returns the output channels and the updated filter. -/
def process (f : CombFilter) (input : List (List ℚ)) :
    List (List ℚ) × CombFilter :=
  let r := zipState (processChannel f.filter_type f.gain) input f.delay_lines
  (r.1, { f with delay_lines := r.2 })

/-- Sequential block-by-block processing on the same filter instance. -/
def processBlocks : CombFilter → List (List (List ℚ)) → List (List (List ℚ)) × CombFilter
  | f, [] => ([], f)
  | f, b :: bs =>
    let r := f.process b
    let rest := processBlocks r.2 bs
    (r.1 :: rest.1, rest.2)

/-- `CombFilter::set_param`: returns the `Result` and the (possibly updated)
filter; on `Err` the filter is returned unchanged, as in the source's early
return. `delay_lines[0]` is modelled with `headD`; the source panics on an
empty channel list, a case no claim exercises. -/
def set_param (f : CombFilter) (param : FilterParam) (value : ℚ) :
    Except CombError Unit × CombFilter :=
  match param with
  | FilterParam.Gain =>
    if 0 ≤ value ∧ value ≤ 1 then
      (Except.ok (), { f with gain := value })
    else
      (Except.error (CombError.InvalidValue param value), f)
  | FilterParam.Delay =>
    let delay_samples := ratToUsize (value * f.sample_rate)
    if 0 < delay_samples ∧ delay_samples ≤ (f.delay_lines.headD (RingBuffer.new 0)).capacity then
      (Except.ok (),
       { f with delay_lines := f.delay_lines.map (fun _ => RingBuffer.new delay_samples) })
    else
      (Except.error (CombError.InvalidValue param value), f)

/-- `CombFilter::get_param`. -/
def get_param (f : CombFilter) (param : FilterParam) : ℚ :=
  match param with
  | FilterParam.Gain => f.gain
  | FilterParam.Delay =>
    ((f.delay_lines.headD (RingBuffer.new 0)).capacity : ℚ) / f.sample_rate

end CombFilter

/-- `LFO` from src/lfo.rs. -/
structure LFO where
  wavetable : RingBuffer
  phase_increment : ℚ
  current_phase : ℚ
  amplitude : ℚ
  sample_rate : ℚ
  deriving Repr, DecidableEq

namespace LFO

/-- `LFO::new`: fills the wavetable by pushing `wavetable_size` sine samples;
`sinq i` abstracts the f32 value `sin((i / wavetable_size) * 2π)` computed by
the source. -/
def new (sinq : ℕ → ℚ) (frequency amplitude sample_rate : ℚ)
    (wavetable_size : ℕ) : LFO :=
  { wavetable := (List.range wavetable_size).foldl
      (fun rb i => rb.push (sinq i)) (RingBuffer.new wavetable_size)
    phase_increment := frequency / sample_rate
    current_phase := 0
    amplitude
    sample_rate }

/-- `LFO::reset`. -/
def reset (l : LFO) : LFO := { l with current_phase := 0 }

/-- `LFO::set_frequency`. -/
def set_frequency (l : LFO) (frequency : ℚ) : LFO :=
  { l with phase_increment := frequency / l.sample_rate }

/-- `LFO::get_frequency`. -/
def get_frequency (l : LFO) : ℚ := l.phase_increment * l.sample_rate

/-- `LFO::tick`: read the wavetable at the current phase, then advance the
phase and wrap it by subtracting 1 once if it reached or exceeded 1. -/
def tick (l : LFO) : ℚ × LFO :=
  let wavetable_size := l.wavetable.capacity
  let index := ratToUsize (l.current_phase * wavetable_size) % wavetable_size
  let value := l.wavetable.get index * l.amplitude
  let phase := l.current_phase + l.phase_increment
  (value, { l with current_phase := if 1 ≤ phase then phase - 1 else phase })

/-- The state reached from `l` after `n` calls to `tick`. -/
def tickN (l : LFO) : ℕ → LFO
  | 0 => l
  | n + 1 => (tickN l n).tick.2

end LFO

/-- `VibratoParam` from src/vibrato.rs. -/
inductive VibratoParam where
  | SampleRate
  | Delay
  | Depth
  | ModulationFrequency
  deriving Repr, DecidableEq

/-- `WAVETABLESIZE` from src/vibrato.rs. -/
def WAVETABLESIZE : ℕ := 1024

/-- `Vibrato` from src/vibrato.rs. -/
structure Vibrato where
  delay_lines : List RingBuffer
  lfos : List LFO
  sample_rate : ℚ
  delay : ℚ
  depth : ℚ
  deriving Repr, DecidableEq

namespace Vibrato

/-- `Vibrato::new`: fails when `delay < depth`; otherwise allocates one delay
line of capacity `2 + delay_samples + 2 * depth_samples` and one LFO per
channel. -/
def new (sinq : ℕ → ℚ) (sample_rate delay depth mod_freq amplitude : ℚ)
    (channels : ℕ) : Except String Vibrato :=
  if delay < depth then
    Except.error "Delay must be greater than or equal to depth"
  else
    let delay_samples := (rustRound (delay * sample_rate)).toNat
    let depth_samples := (rustRound (depth * sample_rate)).toNat
    let total_size := 2 + delay_samples + depth_samples * 2
    Except.ok
      { delay_lines := List.replicate channels (RingBuffer.new total_size)
        lfos := List.replicate channels
          (LFO.new sinq mod_freq amplitude sample_rate WAVETABLESIZE)
        sample_rate
        delay
        depth }

/-- The per-sample body of `Vibrato::process_sample` for one channel: push the
input, tick the LFO, read the delay line fractionally at the modulated tap. -/
def vibStep (sample_rate delay depth : ℚ) (input_sample : ℚ)
    (s : RingBuffer × LFO) : ℚ × (RingBuffer × LFO) :=
  let dl := s.1.push input_sample
  let m := s.2.tick
  let tap_point := 1 + delay * sample_rate + depth * sample_rate * m.1
  (dl.get_frac tap_point, (dl, m.2))

/-- `Vibrato::process`: per channel, per sample. -/
def process (v : Vibrato) (input : List (List ℚ)) :
    List (List ℚ) × Vibrato :=
  let r := zipState (mapStateList (vibStep v.sample_rate v.delay v.depth))
    input (v.delay_lines.zip v.lfos)
  (r.1, { v with
    delay_lines := r.2.map Prod.fst
    lfos := r.2.map Prod.snd })

/-- Sequential block-by-block processing on the same vibrato instance. -/
def processBlocks : Vibrato → List (List (List ℚ)) → List (List (List ℚ)) × Vibrato
  | v, [] => ([], v)
  | v, b :: bs =>
    let r := v.process b
    let rest := processBlocks r.2 bs
    (r.1 :: rest.1, rest.2)

/-- `Vibrato::set_param`: returns the `Result` and the (possibly updated)
state; on `Err` the state is returned unchanged, as in the source's early
return. -/
def set_param (v : Vibrato) (param : VibratoParam) (value : ℚ) :
    Except String Unit × Vibrato :=
  match param with
  | VibratoParam.SampleRate => (Except.ok (), { v with sample_rate := value })
  | VibratoParam.Delay =>
    if value < v.depth then
      (Except.error "Delay must be greater than or equal to depth", v)
    else
      (Except.ok (), { v with delay := value })
  | VibratoParam.Depth =>
    if v.delay < value then
      (Except.error "Depth must be less than or equal to delay", v)
    else
      (Except.ok (), { v with depth := value })
  | VibratoParam.ModulationFrequency =>
    (Except.ok (), { v with lfos := v.lfos.map (fun l => l.set_frequency value) })

/-- `Vibrato::get_param`. -/
def get_param (v : Vibrato) (param : VibratoParam) : ℚ :=
  match param with
  | VibratoParam.SampleRate => v.sample_rate
  | VibratoParam.Delay => v.delay
  | VibratoParam.Depth => v.depth
  | VibratoParam.ModulationFrequency =>
    (v.lfos.headD (LFO.new (fun _ => 0) 0 0 0 0)).get_frequency

end Vibrato

/-! ## Generic lemmas about the processing loops -/

theorem mapStateList_nil {σ : Type} (f : ℚ → σ → ℚ × σ) (s : σ) :
    mapStateList f [] s = ([], s) := rfl

theorem mapStateList_cons {σ : Type} (f : ℚ → σ → ℚ × σ) (x : ℚ) (xs : List ℚ) (s : σ) :
    mapStateList f (x :: xs) s =
      ((f x s).1 :: (mapStateList f xs (f x s).2).1, (mapStateList f xs (f x s).2).2) := rfl

theorem mapStateList_fst_length {σ : Type} (f : ℚ → σ → ℚ × σ) (xs : List ℚ) (s : σ) :
    (mapStateList f xs s).1.length = xs.length := by
  induction xs generalizing s with
  | nil => rfl
  | cons x xs ih => simp [mapStateList_cons, ih]

theorem mapStateList_append {σ : Type} (f : ℚ → σ → ℚ × σ) (xs ys : List ℚ) (s : σ) :
    mapStateList f (xs ++ ys) s =
      ((mapStateList f xs s).1 ++ (mapStateList f ys (mapStateList f xs s).2).1,
       (mapStateList f ys (mapStateList f xs s).2).2) := by
  induction xs generalizing s with
  | nil => simp [mapStateList_nil]
  | cons x xs ih => simp [mapStateList_cons, ih]

theorem mapStateList_take_succ {σ : Type} (f : ℚ → σ → ℚ × σ) (xs : List ℚ) (s : σ)
    (n : ℕ) (h : n < xs.length) :
    mapStateList f (xs.take (n + 1)) s =
      ((mapStateList f (xs.take n) s).1 ++
         [(f (xs.getD n 0) (mapStateList f (xs.take n) s).2).1],
       (f (xs.getD n 0) (mapStateList f (xs.take n) s).2).2) := by
  have hx : xs.take (n + 1) = xs.take n ++ [xs.getD n 0] := by
    rw [List.getD_eq_getElem xs 0 h, ← List.take_concat_get xs n h,
      List.concat_eq_append]
  rw [hx, mapStateList_append]
  simp [mapStateList_cons, mapStateList_nil]

theorem mapStateList_getD {σ : Type} (f : ℚ → σ → ℚ × σ) (xs : List ℚ) (s : σ)
    (n : ℕ) (h : n < xs.length) :
    (mapStateList f xs s).1.getD n 0 =
      (f (xs.getD n 0) (mapStateList f (xs.take n) s).2).1 := by
  induction n generalizing xs s with
  | zero =>
    cases xs with
    | nil => simp at h
    | cons x xs => simp [mapStateList_cons, mapStateList_nil]
  | succ n ih =>
    cases xs with
    | nil => simp at h
    | cons x xs =>
      simp only [List.length_cons, Nat.succ_lt_succ_iff] at h
      simp only [mapStateList_cons, List.getD_cons_succ, List.take_succ_cons]
      exact ih xs (f x s).2 h

theorem zipState_fst_getD {σ : Type} (g : List ℚ → σ → List ℚ × σ)
    (chs : List (List ℚ)) (ss : List σ) (c : ℕ) (d : σ)
    (hc : c < chs.length) (hlen : chs.length ≤ ss.length) :
    (zipState g chs ss).1.getD c [] = (g (chs.getD c []) (ss.getD c d)).1 := by
  induction chs generalizing ss c with
  | nil => simp at hc
  | cons ch chs ih =>
    cases ss with
    | nil => simp at hlen
    | cons s ss =>
      cases c with
      | zero => simp [zipState]
      | succ c =>
        simp only [List.length_cons, Nat.succ_lt_succ_iff] at hc
        simp only [List.length_cons, Nat.succ_le_succ_iff] at hlen
        simp only [zipState, List.getD_cons_succ]
        exact ih ss c hc hlen

theorem zipState_snd_getD {σ : Type} (g : List ℚ → σ → List ℚ × σ)
    (chs : List (List ℚ)) (ss : List σ) (c : ℕ) (d : σ)
    (hc : c < chs.length) (hlen : chs.length ≤ ss.length) :
    (zipState g chs ss).2.getD c d = (g (chs.getD c []) (ss.getD c d)).2 := by
  induction chs generalizing ss c with
  | nil => simp at hc
  | cons ch chs ih =>
    cases ss with
    | nil => simp at hlen
    | cons s ss =>
      cases c with
      | zero => simp [zipState]
      | succ c =>
        simp only [List.length_cons, Nat.succ_lt_succ_iff] at hc
        simp only [List.length_cons, Nat.succ_le_succ_iff] at hlen
        simp only [zipState, List.getD_cons_succ]
        exact ih ss c hc hlen

/-! ## C1: per-sample formula of CombFilter::process -/

theorem combStep_fst (ft : FilterType) (g x : ℚ) (dl : RingBuffer) :
    (CombFilter.combStep ft g x dl).1 = x + g * dl.peek := by
  cases ft <;> rfl

theorem combStep_snd (ft : FilterType) (g x : ℚ) (dl : RingBuffer) :
    (CombFilter.combStep ft g x dl).2 =
      dl.push (match ft with
        | FilterType.FIR => x
        | FilterType.IIR => (CombFilter.combStep ft g x dl).1) := by
  cases ft <;> rfl

/-- C1: for every CombFilter, channel `c` and sample position `n` of a
processed block, the output sample is `input + gain * d` where `d` is the
peek of channel `c`'s delay line state reached after the first `n` samples
(i.e. strictly before any push for sample `n`), and the delay line state
after sample `n` is obtained by pushing the input sample (FIR) or the output
sample (IIR) onto that pre-push state. -/
theorem combFilter_process_sample_formula
    (f : CombFilter) (input : List (List ℚ)) (c n : ℕ)
    (hc : c < input.length) (hch : input.length ≤ f.delay_lines.length)
    (hn : n < (input.getD c []).length) :
    ((f.process input).1.getD c []).getD n 0 =
      (input.getD c []).getD n 0 +
        f.gain * (CombFilter.processChannel f.filter_type f.gain
          ((input.getD c []).take n) (f.delay_lines.getD c (RingBuffer.new 0))).2.peek ∧
    (CombFilter.processChannel f.filter_type f.gain ((input.getD c []).take (n + 1))
        (f.delay_lines.getD c (RingBuffer.new 0))).2 =
      (CombFilter.processChannel f.filter_type f.gain ((input.getD c []).take n)
          (f.delay_lines.getD c (RingBuffer.new 0))).2.push
        (match f.filter_type with
         | FilterType.FIR => (input.getD c []).getD n 0
         | FilterType.IIR => ((f.process input).1.getD c []).getD n 0) := by
  have hout : (f.process input).1.getD c [] =
      (CombFilter.processChannel f.filter_type f.gain (input.getD c [])
        (f.delay_lines.getD c (RingBuffer.new 0))).1 := by
    unfold CombFilter.process
    exact zipState_fst_getD _ input f.delay_lines c _ hc hch
  have h1 : ((f.process input).1.getD c []).getD n 0 =
      (input.getD c []).getD n 0 +
        f.gain * (CombFilter.processChannel f.filter_type f.gain
          ((input.getD c []).take n) (f.delay_lines.getD c (RingBuffer.new 0))).2.peek := by
    rw [hout]
    unfold CombFilter.processChannel
    rw [mapStateList_getD _ _ _ n hn, combStep_fst]
  refine ⟨h1, ?_⟩
  unfold CombFilter.processChannel
  rw [mapStateList_take_succ _ _ _ n hn, combStep_snd]
  rw [h1]
  cases hft : f.filter_type <;> simp [combStep_fst, CombFilter.processChannel]

/-- Witness for C1 at a concrete filter and input. -/
theorem combFilter_process_sample_formula_witness :
    (0 : ℕ) < [[(1 : ℚ), 2]].length ∧
    ((( (CombFilter.new FilterType.FIR 1 1 1 1).process [[1, 2]]).1.getD 0 []).getD 0 0 =
      ([[(1 : ℚ), 2]].getD 0 []).getD 0 0 +
        (CombFilter.new FilterType.FIR 1 1 1 1).gain *
          (CombFilter.processChannel (CombFilter.new FilterType.FIR 1 1 1 1).filter_type
            (CombFilter.new FilterType.FIR 1 1 1 1).gain
            (([[(1 : ℚ), 2]].getD 0 []).take 0)
            ((CombFilter.new FilterType.FIR 1 1 1 1).delay_lines.getD 0 (RingBuffer.new 0))).2.peek ∧
    (CombFilter.processChannel (CombFilter.new FilterType.FIR 1 1 1 1).filter_type
        (CombFilter.new FilterType.FIR 1 1 1 1).gain
        (([[(1 : ℚ), 2]].getD 0 []).take (0 + 1))
        ((CombFilter.new FilterType.FIR 1 1 1 1).delay_lines.getD 0 (RingBuffer.new 0))).2 =
      (CombFilter.processChannel (CombFilter.new FilterType.FIR 1 1 1 1).filter_type
          (CombFilter.new FilterType.FIR 1 1 1 1).gain
          (([[(1 : ℚ), 2]].getD 0 []).take 0)
          ((CombFilter.new FilterType.FIR 1 1 1 1).delay_lines.getD 0 (RingBuffer.new 0))).2.push
        (match (CombFilter.new FilterType.FIR 1 1 1 1).filter_type with
         | FilterType.FIR => ([[(1 : ℚ), 2]].getD 0 []).getD 0 0
         | FilterType.IIR => (((CombFilter.new FilterType.FIR 1 1 1 1).process [[1, 2]]).1.getD 0 []).getD 0 0)) :=
  ⟨by simp,
   combFilter_process_sample_formula (CombFilter.new FilterType.FIR 1 1 1 1)
     [[1, 2]] 0 0 (by simp) (by simp [CombFilter.new]) (by simp)⟩

/-! ## C4: FIFO behaviour of RingBuffer push/pop -/

namespace RingBuffer

theorem toQueue_length (rb : RingBuffer) : rb.toQueue.length = rb.size := by
  simp [toQueue]

theorem Inv_new (c : ℕ) (hc : 0 < c) : (new c).Inv :=
  ⟨by simp [new], hc, by simp [new], hc, by simp [new]⟩

theorem toQueue_new (c : ℕ) : (new c).toQueue = [] := by
  simp [toQueue, new]

theorem push_of_full (rb : RingBuffer) (v : ℚ) (hf : rb.size = rb.capacity) :
    rb.push v =
      { rb with buffer := rb.buffer.set rb.write_index v, read_index := (rb.read_index + 1) % rb.capacity, write_index := (rb.write_index + 1) % rb.capacity } := by
  simp [push, hf]

theorem push_of_not_full (rb : RingBuffer) (v : ℚ) (hf : ¬ rb.size = rb.capacity) :
    rb.push v =
      { rb with buffer := rb.buffer.set rb.write_index v, size := rb.size + 1, write_index := (rb.write_index + 1) % rb.capacity } := by
  simp [push, hf]

theorem push_Inv_toQueue (rb : RingBuffer) (hInv : rb.Inv) (v : ℚ) :
    (rb.push v).Inv ∧ (rb.push v).capacity = rb.capacity ∧
    (rb.push v).toQueue =
      (if rb.size = rb.capacity then rb.toQueue.tail else rb.toQueue) ++ [v] := by
  obtain ⟨hbuf, hcpos, hsz, hri, hwi⟩ := hInv
  have hwic : rb.write_index < rb.capacity := by
    rw [hwi]; exact Nat.mod_lt _ hcpos
  have hwib : rb.write_index < rb.buffer.length := by rw [hbuf]; exact hwic
  by_cases hf : rb.size = rb.capacity
  · have hwiri : rb.write_index = rb.read_index := by
      rw [hwi, hf, Nat.add_mod_right, Nat.mod_eq_of_lt hri]
    have hq : ∀ i, i + 1 < rb.capacity → (rb.push v).get i = rb.get (i + 1) := by
      intro i hi
      rw [push_of_full rb v hf]
      show (rb.buffer.set rb.write_index v).getD
          (((rb.read_index + 1) % rb.capacity + i) % rb.capacity) 0 =
        rb.buffer.getD ((rb.read_index + (i + 1)) % rb.capacity) 0
      rw [Nat.mod_add_mod]
      have hidx : (rb.read_index + 1 + i) % rb.capacity =
          (rb.read_index + (i + 1)) % rb.capacity := by
        congr 1; omega
      rw [hidx]
      have hne : (rb.read_index + (i + 1)) % rb.capacity ≠ rb.write_index := by
        rw [hwiri]
        intro heq
        have h1 : (rb.read_index + (i + 1)) % rb.capacity =
            (rb.read_index + 0) % rb.capacity := by
          rw [heq, Nat.add_zero, Nat.mod_eq_of_lt hri]
        have h2 : (i + 1) % rb.capacity = 0 % rb.capacity :=
          Nat.ModEq.add_left_cancel' rb.read_index h1
        rw [Nat.mod_eq_of_lt (by omega), Nat.zero_mod] at h2
        omega
      simp only [List.getD_eq_getElem?_getD]
      rw [List.getElem?_set_ne (Ne.symm hne)]
    have hlast : (rb.push v).get (rb.capacity - 1) = v := by
      rw [push_of_full rb v hf]
      show (rb.buffer.set rb.write_index v).getD
          (((rb.read_index + 1) % rb.capacity + (rb.capacity - 1)) % rb.capacity) 0 = v
      rw [Nat.mod_add_mod]
      have hidx : (rb.read_index + 1 + (rb.capacity - 1)) % rb.capacity =
          rb.write_index := by
        rw [hwiri]
        have h : rb.read_index + 1 + (rb.capacity - 1) = rb.read_index + rb.capacity := by
          omega
        rw [h, Nat.add_mod_right, Nat.mod_eq_of_lt hri]
      rw [hidx]
      simp only [List.getD_eq_getElem?_getD]
      rw [List.getElem?_set_self hwib]
      rfl
    have hsz' : (rb.push v).size = rb.capacity := by
      rw [push_of_full rb v hf]; exact hf
    have hcap' : (rb.push v).capacity = rb.capacity := by
      rw [push_of_full rb v hf]
    have hInv' : (rb.push v).Inv := by
      rw [push_of_full rb v hf]
      refine ⟨by simpa using hbuf, hcpos, by simpa using hsz, Nat.mod_lt _ hcpos, ?_⟩
      show (rb.write_index + 1) % rb.capacity =
        ((rb.read_index + 1) % rb.capacity + rb.size) % rb.capacity
      rw [hwiri, hf, Nat.add_mod_right, Nat.mod_mod_of_dvd _ dvd_rfl]
    refine ⟨hInv', hcap', ?_⟩
    rw [if_pos hf]
    obtain ⟨c', hc'⟩ : ∃ c', rb.capacity = c' + 1 := ⟨rb.capacity - 1, by omega⟩
    have htq : (rb.push v).toQueue = (List.range c').map (rb.push v).get ++
        [(rb.push v).get c'] := by
      show (List.range (rb.push v).size).map _ = _
      rw [hsz', hc', List.range_succ, List.map_append, List.map_cons, List.map_nil]
    have htail : rb.toQueue.tail = (List.range c').map (fun i => rb.get (i + 1)) := by
      show ((List.range rb.size).map rb.get).tail = _
      rw [hf, hc', List.range_succ_eq_map, List.map_cons, List.tail_cons, List.map_map]
      rfl
    rw [htq, htail]
    congr 1
    · refine List.map_congr_left ?_
      intro i hi
      have hic : i < c' := List.mem_range.mp hi
      exact hq i (by omega)
    · have hcc : c' = rb.capacity - 1 := by omega
      rw [hcc, hlast]
  · have hszlt : rb.size < rb.capacity := by omega
    have hq : ∀ i, i < rb.size → (rb.push v).get i = rb.get i := by
      intro i hi
      rw [push_of_not_full rb v hf]
      show (rb.buffer.set rb.write_index v).getD
          ((rb.read_index + i) % rb.capacity) 0 =
        rb.buffer.getD ((rb.read_index + i) % rb.capacity) 0
      have hne : (rb.read_index + i) % rb.capacity ≠ rb.write_index := by
        rw [hwi]
        intro heq
        have h2 : i % rb.capacity = rb.size % rb.capacity :=
          Nat.ModEq.add_left_cancel' rb.read_index heq
        rw [Nat.mod_eq_of_lt (by omega), Nat.mod_eq_of_lt hszlt] at h2
        omega
      simp only [List.getD_eq_getElem?_getD]
      rw [List.getElem?_set_ne (Ne.symm hne)]
    have hlast : (rb.push v).get rb.size = v := by
      rw [push_of_not_full rb v hf]
      show (rb.buffer.set rb.write_index v).getD
          ((rb.read_index + rb.size) % rb.capacity) 0 = v
      rw [← hwi]
      simp only [List.getD_eq_getElem?_getD]
      rw [List.getElem?_set_self hwib]
      rfl
    have hInv' : (rb.push v).Inv := by
      rw [push_of_not_full rb v hf]
      refine ⟨by simpa using hbuf, hcpos, by simpa using hszlt, hri, ?_⟩
      show (rb.write_index + 1) % rb.capacity =
        (rb.read_index + (rb.size + 1)) % rb.capacity
      rw [hwi, Nat.mod_add_mod]
      congr 1
    have hcap' : (rb.push v).capacity = rb.capacity := by
      rw [push_of_not_full rb v hf]
    refine ⟨hInv', hcap', ?_⟩
    rw [if_neg hf]
    have htq : (rb.push v).toQueue = (List.range rb.size).map (rb.push v).get ++
        [(rb.push v).get rb.size] := by
      show (List.range (rb.push v).size).map _ = _
      have hsz' : (rb.push v).size = rb.size + 1 := by
        rw [push_of_not_full rb v hf]
      rw [hsz', List.range_succ, List.map_append, List.map_cons, List.map_nil]
    rw [htq]
    congr 1
    · refine List.map_congr_left ?_
      intro i hi
      exact hq i (List.mem_range.mp hi)
    · rw [hlast]

end RingBuffer

namespace RingBuffer

theorem pop_Inv_toQueue (rb : RingBuffer) (hInv : rb.Inv) (hpos : rb.size ≠ 0) :
    (rb.pop).1 = rb.toQueue.headD 0 ∧ (rb.pop).2.Inv ∧
    (rb.pop).2.capacity = rb.capacity ∧ (rb.pop).2.toQueue = rb.toQueue.tail := by
  obtain ⟨hbuf, hcpos, hsz, hri, hwi⟩ := hInv
  have hpop : rb.pop = (rb.buffer.getD rb.read_index 0,
      { rb with read_index := (rb.read_index + 1) % rb.capacity, size := rb.size - 1 }) := by
    simp [pop, hpos]
  obtain ⟨n', hn'⟩ : ∃ n', rb.size = n' + 1 := ⟨rb.size - 1, by omega⟩
  have hhead : rb.toQueue.headD 0 = rb.get 0 := by
    show ((List.range rb.size).map rb.get).headD 0 = _
    rw [hn', List.range_succ_eq_map, List.map_cons, List.headD_cons]
  have hval : (rb.pop).1 = rb.toQueue.headD 0 := by
    rw [hpop, hhead]
    show rb.buffer.getD rb.read_index 0 = rb.buffer.getD ((rb.read_index + 0) % rb.capacity) 0
    rw [Nat.add_zero, Nat.mod_eq_of_lt hri]
  have hget : ∀ i, (rb.pop).2.get i = rb.get (i + 1) := by
    intro i
    rw [hpop]
    show rb.buffer.getD (((rb.read_index + 1) % rb.capacity + i) % rb.capacity) 0 =
      rb.buffer.getD ((rb.read_index + (i + 1)) % rb.capacity) 0
    rw [Nat.mod_add_mod]
    congr 2
    omega
  have hInv' : (rb.pop).2.Inv := by
    rw [hpop]
    refine ⟨hbuf, hcpos, by show rb.size - 1 ≤ rb.capacity; omega,
      Nat.mod_lt _ hcpos, ?_⟩
    show rb.write_index = ((rb.read_index + 1) % rb.capacity + (rb.size - 1)) % rb.capacity
    rw [Nat.mod_add_mod, hwi]
    congr 1
    omega
  have hcap' : (rb.pop).2.capacity = rb.capacity := by rw [hpop]
  have hsz' : (rb.pop).2.size = rb.size - 1 := by rw [hpop]
  refine ⟨hval, hInv', hcap', ?_⟩
  show (List.range (rb.pop).2.size).map (rb.pop).2.get = rb.toQueue.tail
  rw [hsz', hn', Nat.add_sub_cancel]
  have htail : rb.toQueue.tail = (List.range n').map (fun i => rb.get (i + 1)) := by
    show ((List.range rb.size).map rb.get).tail = _
    rw [hn', List.range_succ_eq_map, List.map_cons, List.tail_cons, List.map_map]
    rfl
  rw [htail]
  refine List.map_congr_left ?_
  intro i _
  exact hget i

theorem pushAll_toQueue (vs : List ℚ) (rb : RingBuffer) (hInv : rb.Inv) :
    (rb.pushAll vs).Inv ∧ (rb.pushAll vs).capacity = rb.capacity ∧
    (rb.pushAll vs).toQueue =
      (rb.toQueue ++ vs).drop ((rb.toQueue ++ vs).length - rb.capacity) := by
  induction vs generalizing rb with
  | nil =>
    refine ⟨hInv, rfl, ?_⟩
    have hlen : rb.toQueue.length ≤ rb.capacity := by
      rw [toQueue_length]; exact hInv.2.2.1
    simp only [pushAll, List.foldl_nil, List.append_nil]
    rw [Nat.sub_eq_zero_of_le hlen, List.drop_zero]
  | cons v vs ih =>
    obtain ⟨hInv', hcap', htq'⟩ := push_Inv_toQueue rb hInv v
    obtain ⟨ih1, ih2, ih3⟩ := ih (rb.push v) hInv'
    have hstep : rb.pushAll (v :: vs) = (rb.push v).pushAll vs := rfl
    refine ⟨hstep ▸ ih1, by rw [hstep, ih2, hcap'], ?_⟩
    rw [hstep, ih3, htq', hcap']
    by_cases hf : rb.size = rb.capacity
    · rw [if_pos hf]
      have hqlen : rb.toQueue.length = rb.capacity := by rw [toQueue_length, hf]
      obtain ⟨x, q', hx⟩ : ∃ x q', rb.toQueue = x :: q' := by
        cases hq : rb.toQueue with
        | nil =>
          rw [hq] at hqlen
          simp at hqlen
          have hcpos : 0 < rb.capacity := hInv.2.1
          exfalso
          omega
        | cons x q' => exact ⟨x, q', rfl⟩
      rw [hx, List.tail_cons]
      have hassoc : (q' ++ [v]) ++ vs = q' ++ v :: vs := by
        rw [List.append_assoc, List.singleton_append]
      have hlist : (x :: q') ++ v :: vs = x :: (q' ++ v :: vs) := rfl
      rw [hassoc, hlist]
      have hlen1 : (x :: (q' ++ v :: vs)).length = (q' ++ v :: vs).length + 1 := by
        simp
      have hq'len : q'.length + 1 = rb.capacity := by
        rw [hx] at hqlen
        simpa using hqlen
      have hlenge : rb.capacity ≤ (q' ++ v :: vs).length := by
        rw [List.length_append, List.length_cons]
        omega
      rw [hlen1]
      have hdrop : (q' ++ v :: vs).length + 1 - rb.capacity =
          ((q' ++ v :: vs).length - rb.capacity) + 1 := by omega
      rw [hdrop, List.drop_succ_cons]
    · rw [if_neg hf]
      have hassoc : (rb.toQueue ++ [v]) ++ vs = rb.toQueue ++ v :: vs := by
        rw [List.append_assoc, List.singleton_append]
      rw [hassoc]

theorem popN_toQueue (n : ℕ) (rb : RingBuffer) (hInv : rb.Inv) (hn : n ≤ rb.size) :
    (rb.popN n).1 = rb.toQueue.take n := by
  induction n generalizing rb with
  | zero => simp [popN]
  | succ n ih =>
    have hpos : rb.size ≠ 0 := by omega
    obtain ⟨hval, hInv', hcap', htq'⟩ := pop_Inv_toQueue rb hInv hpos
    have hsz' : (rb.pop).2.size = rb.size - 1 := by
      have h1 := toQueue_length (rb.pop).2
      rw [htq'] at h1
      have h2 := toQueue_length rb
      simp [List.length_tail] at h1
      omega
    have hstep : (rb.popN (n + 1)).1 = (rb.pop).1 :: ((rb.pop).2.popN n).1 := rfl
    rw [hstep, ih (rb.pop).2 hInv' (by omega), hval, htq']
    obtain ⟨x, q', hx⟩ : ∃ x q', rb.toQueue = x :: q' := by
      have h2 := toQueue_length rb
      cases hq : rb.toQueue with
      | nil => rw [hq] at h2; simp at h2; omega
      | cons x q' => exact ⟨x, q', rfl⟩
    rw [hx, List.headD_cons, List.tail_cons, List.take_succ_cons]

end RingBuffer

/-- C4: pushing `c + k` values into a fresh ring buffer of capacity `c > 0`
and then popping `c` times returns exactly the last `c` pushed values in push
order; `push` always writes at `write_index` and advances it by 1 mod
capacity, evicting the oldest element (advancing `read_index`) when full and
incrementing `size` otherwise. -/
theorem ringBuffer_push_pop_fifo :
    (∀ (c k : ℕ) (vs : List ℚ), 0 < c → vs.length = c + k →
      (((RingBuffer.new c).pushAll vs).popN c).1 = vs.drop k) ∧
    (∀ (rb : RingBuffer) (v : ℚ),
      (rb.push v).write_index = (rb.write_index + 1) % rb.capacity ∧
      (rb.size = rb.capacity →
        (rb.push v).read_index = (rb.read_index + 1) % rb.capacity ∧
        (rb.push v).size = rb.size) ∧
      (rb.size ≠ rb.capacity →
        (rb.push v).size = rb.size + 1 ∧
        (rb.push v).read_index = rb.read_index)) := by
  constructor
  · intro c k vs hc hlen
    obtain ⟨hInv, hcap, htq⟩ :=
      RingBuffer.pushAll_toQueue vs (RingBuffer.new c) (RingBuffer.Inv_new c hc)
    rw [RingBuffer.toQueue_new, List.nil_append] at htq
    have hcapn : (RingBuffer.new c).capacity = c := rfl
    rw [hcapn] at hcap htq
    have hdrop : vs.length - c = k := by omega
    rw [hdrop] at htq
    have hsz : ((RingBuffer.new c).pushAll vs).size = c := by
      have h1 := RingBuffer.toQueue_length ((RingBuffer.new c).pushAll vs)
      rw [htq] at h1
      rw [← h1, List.length_drop, hlen]
      omega
    have := RingBuffer.popN_toQueue c ((RingBuffer.new c).pushAll vs) hInv (by omega)
    rw [this, htq]
    refine List.take_of_length_le ?_
    rw [List.length_drop, hlen]
    omega
  · intro rb v
    refine ⟨?_, ?_, ?_⟩
    · by_cases hf : rb.size = rb.capacity
      · rw [RingBuffer.push_of_full rb v hf]
      · rw [RingBuffer.push_of_not_full rb v hf]
    · intro hf
      rw [RingBuffer.push_of_full rb v hf]
      exact ⟨rfl, rfl⟩
    · intro hf
      rw [RingBuffer.push_of_not_full rb v hf]
      exact ⟨rfl, rfl⟩

/-- Witness for C4 at a concrete capacity, overflow and value list. -/
theorem ringBuffer_push_pop_fifo_witness :
    (0 < 2 ∧ [(5 : ℚ), 6, 7].length = 2 + 1 ∧
      (((RingBuffer.new 2).pushAll [(5 : ℚ), 6, 7]).popN 2).1 = [(5 : ℚ), 6, 7].drop 1) ∧
    ({ buffer := [(0 : ℚ)], read_index := 0, write_index := 0, capacity := 1, size := 0 :
        RingBuffer }.push 9).write_index = (0 + 1) % 1 :=
  ⟨⟨by decide, by decide,
    ringBuffer_push_pop_fifo.1 2 1 [(5 : ℚ), 6, 7] (by decide) (by decide)⟩,
   (ringBuffer_push_pop_fifo.2
     { buffer := [(0 : ℚ)], read_index := 0, write_index := 0, capacity := 1, size := 0 } 9).1⟩

/-! ## C2: fractional reads of the ring buffer -/

namespace RingBuffer

theorem get_congr (rb : RingBuffer) {a b : ℕ} (h : a % rb.capacity = b % rb.capacity) :
    rb.get a = rb.get b := by
  unfold get
  have h2 : (rb.read_index + a) % rb.capacity = (rb.read_index + b) % rb.capacity := by
    rw [Nat.add_mod, h, ← Nat.add_mod]
  rw [h2]

theorem get_frac_natCast (rb : RingBuffer) (n : ℕ) :
    rb.get_frac (n : ℚ) = rb.get n := by
  simp only [get_frac, Int.floor_natCast, Int.toNat_ofNat]
  have h0 : rb.get (n % rb.capacity) = rb.get n :=
    get_congr rb (Nat.mod_mod_of_dvd _ dvd_rfl)
  rw [h0]
  push_cast
  ring

theorem get_frac_half (rb : RingBuffer) (n : ℕ) :
    rb.get_frac ((n : ℚ) + 1/2) = (rb.get n + rb.get (n + 1)) / 2 := by
  simp only [get_frac]
  have hfloor : (⌊(n : ℚ) + 1/2⌋ : ℤ) = (n : ℤ) := by
    rw [add_comm, Int.floor_add_nat]
    norm_num
  rw [hfloor, Int.toNat_ofNat]
  have h0 : rb.get (n % rb.capacity) = rb.get n :=
    get_congr rb (Nat.mod_mod_of_dvd _ dvd_rfl)
  have h1 : rb.get ((n % rb.capacity + 1) % rb.capacity) = rb.get (n + 1) :=
    get_congr rb (by rw [Nat.mod_mod_of_dvd _ dvd_rfl, Nat.mod_add_mod])
  rw [h0, h1]
  push_cast
  ring

end RingBuffer

/-- C2: `get_frac` (modelled from the spec, as its source is absent from
src/ring_buffer.rs) linearly interpolates between the two neighbouring
integer-offset reads: at an integer offset it equals `get`, at a half-integer
offset it is the arithmetic mean of the two neighbouring `get`s, and for any
offset ≥ 0 it equals `(1 - frac) * buffer[i0] + frac * buffer[i1]` with
`i0 = floor(offset) mod capacity`, `i1 = (i0 + 1) mod capacity`,
`frac = offset - floor(offset)`, both reads relative to `read_index`. -/
theorem ringBuffer_get_frac_interpolation (rb : RingBuffer) (n : ℕ) :
    rb.get_frac (n : ℚ) = rb.get n ∧
    rb.get_frac ((n : ℚ) + 1/2) = (rb.get n + rb.get (n + 1)) / 2 ∧
    (∀ q : ℚ, 0 ≤ q →
      rb.get_frac q =
        (1 - (q - (⌊q⌋ : ℚ))) * rb.get ((Int.toNat ⌊q⌋) % rb.capacity) +
          (q - (⌊q⌋ : ℚ)) * rb.get (((Int.toNat ⌊q⌋) % rb.capacity + 1) % rb.capacity)) :=
  ⟨RingBuffer.get_frac_natCast rb n, RingBuffer.get_frac_half rb n,
   fun _ _ => rfl⟩

/-- Witness for C2 on a concrete two-slot buffer and the offset 3/2. -/
theorem ringBuffer_get_frac_interpolation_witness :
    (0 : ℚ) ≤ 3/2 ∧
    ({ buffer := [(3 : ℚ), 7], read_index := 0, write_index := 0, capacity := 2, size := 2 :
        RingBuffer }).get_frac (3/2) =
      (1 - ((3/2 : ℚ) - (⌊(3/2 : ℚ)⌋ : ℚ))) *
        ({ buffer := [(3 : ℚ), 7], read_index := 0, write_index := 0, capacity := 2, size := 2 :
          RingBuffer }).get ((Int.toNat ⌊(3/2 : ℚ)⌋) %
            ({ buffer := [(3 : ℚ), 7], read_index := 0, write_index := 0, capacity := 2, size := 2 :
              RingBuffer }).capacity) +
      ((3/2 : ℚ) - (⌊(3/2 : ℚ)⌋ : ℚ)) *
        ({ buffer := [(3 : ℚ), 7], read_index := 0, write_index := 0, capacity := 2, size := 2 :
          RingBuffer }).get (((Int.toNat ⌊(3/2 : ℚ)⌋) %
            ({ buffer := [(3 : ℚ), 7], read_index := 0, write_index := 0, capacity := 2, size := 2 :
              RingBuffer }).capacity + 1) %
            ({ buffer := [(3 : ℚ), 7], read_index := 0, write_index := 0, capacity := 2, size := 2 :
              RingBuffer }).capacity) :=
  ⟨by norm_num,
   (ringBuffer_get_frac_interpolation
     { buffer := [(3 : ℚ), 7], read_index := 0, write_index := 0, capacity := 2, size := 2 }
     0).2.2 (3/2) (by norm_num)⟩

/-! ## C3: block-size invariance -/

theorem zipState_nil_channels {σ : Type} (f : ℚ → σ → ℚ × σ) (n : ℕ) (ss : List σ)
    (h : n ≤ ss.length) :
    zipState (mapStateList f) (List.replicate n []) ss = (List.replicate n [], ss) := by
  induction n generalizing ss with
  | zero => simp [zipState]
  | succ n ih =>
    cases ss with
    | nil => simp at h
    | cons s ss =>
      simp only [List.length_cons, Nat.succ_le_succ_iff] at h
      simp only [List.replicate_succ, zipState, mapStateList_nil]
      rw [ih ss h]

theorem zipState_lengths {σ : Type} (g : List ℚ → σ → List ℚ × σ)
    (chs : List (List ℚ)) (ss : List σ) (h : chs.length ≤ ss.length) :
    (zipState g chs ss).1.length = chs.length ∧
    (zipState g chs ss).2.length = ss.length := by
  induction chs generalizing ss with
  | nil => simp [zipState]
  | cons ch chs ih =>
    cases ss with
    | nil => simp at h
    | cons s ss =>
      simp only [List.length_cons, Nat.succ_le_succ_iff] at h
      obtain ⟨h1, h2⟩ := ih ss h
      simp [zipState, h1, h2]

theorem zipState_append {σ : Type} (f : ℚ → σ → ℚ × σ) (A B : List (List ℚ))
    (ss : List σ) (hAB : A.length = B.length) (hA : A.length ≤ ss.length) :
    zipState (mapStateList f) (List.zipWith (fun x y => x ++ y) A B) ss =
      (List.zipWith (fun x y => x ++ y) (zipState (mapStateList f) A ss).1
         (zipState (mapStateList f) B (zipState (mapStateList f) A ss).2).1,
       (zipState (mapStateList f) B (zipState (mapStateList f) A ss).2).2) := by
  induction A generalizing B ss with
  | nil =>
    cases B with
    | nil => simp [zipState]
    | cons b B => simp at hAB
  | cons a A ih =>
    cases B with
    | nil => simp at hAB
    | cons b B =>
      cases ss with
      | nil => simp at hA
      | cons s ss =>
        simp only [List.length_cons, Nat.succ_le_succ_iff] at hA
        simp only [List.length_cons, Nat.add_right_cancel_iff] at hAB
        simp only [List.zipWith_cons_cons, zipState]
        rw [mapStateList_append, ih B ss hAB hA]

theorem joinBlocks_nil (nch : ℕ) : joinBlocks nch [] = List.replicate nch [] := rfl

theorem joinBlocks_cons (nch : ℕ) (b : List (List ℚ)) (bs : List (List (List ℚ))) :
    joinBlocks nch (b :: bs) =
      List.zipWith (fun x y => x ++ y) b (joinBlocks nch bs) := rfl

theorem joinBlocks_length (nch : ℕ) (blocks : List (List (List ℚ)))
    (hb : ∀ b ∈ blocks, b.length = nch) : (joinBlocks nch blocks).length = nch := by
  induction blocks with
  | nil => simp [joinBlocks]
  | cons b bs ih =>
    have h1 : b.length = nch := hb b (List.mem_cons_self b bs)
    have h2 := ih (fun b' h => hb b' (List.mem_cons_of_mem b h))
    rw [joinBlocks_cons, List.length_zipWith, h1, h2, Nat.min_self]

theorem zipStateBlocks_join {σ : Type} (f : ℚ → σ → ℚ × σ) (nch : ℕ)
    (blocks : List (List (List ℚ))) (ss : List σ)
    (hb : ∀ b ∈ blocks, b.length = nch) (hch : nch ≤ ss.length) :
    zipState (mapStateList f) (joinBlocks nch blocks) ss =
      (joinBlocks nch (zipStateBlocks f blocks ss).1,
       (zipStateBlocks f blocks ss).2) := by
  induction blocks generalizing ss with
  | nil =>
    rw [joinBlocks_nil, zipState_nil_channels f nch ss hch]
    rfl
  | cons b bs ih =>
    have hblen : b.length = nch := hb b (List.mem_cons_self b bs)
    have hbs : ∀ b' ∈ bs, b'.length = nch :=
      fun b' h => hb b' (List.mem_cons_of_mem b h)
    have hJlen : (joinBlocks nch bs).length = nch := joinBlocks_length nch bs hbs
    rw [joinBlocks_cons,
      zipState_append f b (joinBlocks nch bs) ss (by rw [hblen, hJlen])
        (by rw [hblen]; exact hch)]
    have hss2 : (zipState (mapStateList f) b ss).2.length = ss.length :=
      (zipState_lengths _ b ss (by rw [hblen]; exact hch)).2
    rw [ih (zipState (mapStateList f) b ss).2 hbs (by rw [hss2]; exact hch)]
    rw [show zipStateBlocks f (b :: bs) ss =
      ((zipState (mapStateList f) b ss).1 ::
        (zipStateBlocks f bs (zipState (mapStateList f) b ss).2).1,
       (zipStateBlocks f bs (zipState (mapStateList f) b ss).2).2) from rfl]
    rw [joinBlocks_cons]

theorem processChannel_eq_mapStateList (ft : FilterType) (g : ℚ) :
    CombFilter.processChannel ft g = mapStateList (CombFilter.combStep ft g) := rfl

theorem combFilter_processBlocks_spec (nch : ℕ) :
    ∀ (blocks : List (List (List ℚ))) (f : CombFilter),
      (∀ b ∈ blocks, b.length = nch) → nch ≤ f.delay_lines.length →
      (CombFilter.processBlocks f blocks).1 =
        (zipStateBlocks (CombFilter.combStep f.filter_type f.gain) blocks
          f.delay_lines).1 ∧
      (CombFilter.processBlocks f blocks).2 =
        { f with delay_lines :=
          (zipStateBlocks (CombFilter.combStep f.filter_type f.gain) blocks
            f.delay_lines).2 } := by
  intro blocks
  induction blocks with
  | nil =>
    intro f _ _
    exact ⟨rfl, rfl⟩
  | cons b bs ih =>
    intro f hb hch
    have hblen : b.length = nch := hb b (List.mem_cons_self b bs)
    have hbs : ∀ b' ∈ bs, b'.length = nch :=
      fun b' h => hb b' (List.mem_cons_of_mem b h)
    have hdll : (f.process b).2.delay_lines =
        (zipState (mapStateList (CombFilter.combStep f.filter_type f.gain)) b
          f.delay_lines).2 := rfl
    have hlen2 : (f.process b).2.delay_lines.length = f.delay_lines.length := by
      rw [hdll]
      exact (zipState_lengths _ b f.delay_lines (by rw [hblen]; exact hch)).2
    obtain ⟨ih1, ih2⟩ := ih (f.process b).2 hbs (by rw [hlen2]; exact hch)
    constructor
    · show (f.process b).1 :: (CombFilter.processBlocks (f.process b).2 bs).1 = _
      rw [ih1]
      rfl
    · show (CombFilter.processBlocks (f.process b).2 bs).2 = _
      rw [ih2]
      rfl

/-- Per-claim helper: CombFilter block invariance. -/
theorem combFilter_process_joinBlocks (f : CombFilter) (nch : ℕ)
    (blocks : List (List (List ℚ)))
    (hb : ∀ b ∈ blocks, b.length = nch) (hch : nch ≤ f.delay_lines.length) :
    f.process (joinBlocks nch blocks) =
      (joinBlocks nch (CombFilter.processBlocks f blocks).1,
       (CombFilter.processBlocks f blocks).2) := by
  obtain ⟨h1, h2⟩ := combFilter_processBlocks_spec nch blocks f hb hch
  have hkey := zipStateBlocks_join (CombFilter.combStep f.filter_type f.gain)
    nch blocks f.delay_lines hb hch
  have hproc : f.process (joinBlocks nch blocks) =
      ((zipState (mapStateList (CombFilter.combStep f.filter_type f.gain))
          (joinBlocks nch blocks) f.delay_lines).1,
       { f with delay_lines :=
          (zipState (mapStateList (CombFilter.combStep f.filter_type f.gain))
            (joinBlocks nch blocks) f.delay_lines).2 }) := rfl
  rw [hproc, hkey, h1, h2]

theorem zip_map_fst_snd_eq {α β : Type} (l : List (α × β)) :
    (l.map Prod.fst).zip (l.map Prod.snd) = l := by
  rw [← List.unzip_fst, ← List.unzip_snd, List.zip_unzip]

theorem vibrato_processBlocks_spec (nch : ℕ) :
    ∀ (blocks : List (List (List ℚ))) (v : Vibrato),
      (∀ b ∈ blocks, b.length = nch) →
      v.delay_lines.length = v.lfos.length →
      nch ≤ (v.delay_lines.zip v.lfos).length →
      (Vibrato.processBlocks v blocks).1 =
        (zipStateBlocks (Vibrato.vibStep v.sample_rate v.delay v.depth) blocks
          (v.delay_lines.zip v.lfos)).1 ∧
      (Vibrato.processBlocks v blocks).2 =
        { v with
          delay_lines :=
            (zipStateBlocks (Vibrato.vibStep v.sample_rate v.delay v.depth) blocks
              (v.delay_lines.zip v.lfos)).2.map Prod.fst
          lfos :=
            (zipStateBlocks (Vibrato.vibStep v.sample_rate v.delay v.depth) blocks
              (v.delay_lines.zip v.lfos)).2.map Prod.snd } := by
  intro blocks
  induction blocks with
  | nil =>
    intro v _ hvl _
    refine ⟨rfl, ?_⟩
    show v = _
    have h1 : (v.delay_lines.zip v.lfos).map Prod.fst = v.delay_lines :=
      List.map_fst_zip v.delay_lines v.lfos (by omega)
    have h2 : (v.delay_lines.zip v.lfos).map Prod.snd = v.lfos :=
      List.map_snd_zip v.delay_lines v.lfos (by omega)
    show v = { v with
      delay_lines := (v.delay_lines.zip v.lfos).map Prod.fst
      lfos := (v.delay_lines.zip v.lfos).map Prod.snd }
    rw [h1, h2]
  | cons b bs ih =>
    intro v hb hvl hch
    have hblen : b.length = nch := hb b (List.mem_cons_self b bs)
    have hbs : ∀ b' ∈ bs, b'.length = nch :=
      fun b' h => hb b' (List.mem_cons_of_mem b h)
    have hJ : (v.process b).2.delay_lines.zip (v.process b).2.lfos =
        (zipState (mapStateList (Vibrato.vibStep v.sample_rate v.delay v.depth)) b
          (v.delay_lines.zip v.lfos)).2 := by
      show ((zipState (mapStateList (Vibrato.vibStep v.sample_rate v.delay v.depth)) b
          (v.delay_lines.zip v.lfos)).2.map Prod.fst).zip
        ((zipState (mapStateList (Vibrato.vibStep v.sample_rate v.delay v.depth)) b
          (v.delay_lines.zip v.lfos)).2.map Prod.snd) = _
      exact zip_map_fst_snd_eq _
    have hJlen : (zipState (mapStateList (Vibrato.vibStep v.sample_rate v.delay v.depth)) b
        (v.delay_lines.zip v.lfos)).2.length = (v.delay_lines.zip v.lfos).length :=
      (zipState_lengths _ b _ (by rw [hblen]; exact hch)).2
    have hvl' : (v.process b).2.delay_lines.length = (v.process b).2.lfos.length := by
      show ((zipState (mapStateList (Vibrato.vibStep v.sample_rate v.delay v.depth)) b
          (v.delay_lines.zip v.lfos)).2.map Prod.fst).length =
        ((zipState (mapStateList (Vibrato.vibStep v.sample_rate v.delay v.depth)) b
          (v.delay_lines.zip v.lfos)).2.map Prod.snd).length
      rw [List.length_map, List.length_map]
    have hch' : nch ≤ ((v.process b).2.delay_lines.zip (v.process b).2.lfos).length := by
      rw [hJ, hJlen]
      exact hch
    obtain ⟨ih1, ih2⟩ := ih (v.process b).2 hbs hvl' hch'
    have hsame : Vibrato.vibStep (v.process b).2.sample_rate (v.process b).2.delay
        (v.process b).2.depth = Vibrato.vibStep v.sample_rate v.delay v.depth := rfl
    constructor
    · show (v.process b).1 :: (Vibrato.processBlocks (v.process b).2 bs).1 = _
      rw [ih1, hsame, hJ]
      rfl
    · show (Vibrato.processBlocks (v.process b).2 bs).2 = _
      rw [ih2, hsame, hJ]
      rfl

/-- Per-claim helper: Vibrato block invariance. -/
theorem vibrato_process_joinBlocks (v : Vibrato) (nch : ℕ)
    (blocks : List (List (List ℚ)))
    (hb : ∀ b ∈ blocks, b.length = nch)
    (hvl : v.delay_lines.length = v.lfos.length)
    (hch : nch ≤ (v.delay_lines.zip v.lfos).length) :
    v.process (joinBlocks nch blocks) =
      (joinBlocks nch (Vibrato.processBlocks v blocks).1,
       (Vibrato.processBlocks v blocks).2) := by
  obtain ⟨h1, h2⟩ := vibrato_processBlocks_spec nch blocks v hb hvl hch
  have hkey := zipStateBlocks_join (Vibrato.vibStep v.sample_rate v.delay v.depth)
    nch blocks (v.delay_lines.zip v.lfos) hb hch
  have hproc : v.process (joinBlocks nch blocks) =
      ((zipState (mapStateList (Vibrato.vibStep v.sample_rate v.delay v.depth))
          (joinBlocks nch blocks) (v.delay_lines.zip v.lfos)).1,
       { v with
         delay_lines :=
           (zipState (mapStateList (Vibrato.vibStep v.sample_rate v.delay v.depth))
             (joinBlocks nch blocks) (v.delay_lines.zip v.lfos)).2.map Prod.fst
         lfos :=
           (zipState (mapStateList (Vibrato.vibStep v.sample_rate v.delay v.depth))
             (joinBlocks nch blocks) (v.delay_lines.zip v.lfos)).2.map Prod.snd }) := rfl
  rw [hproc, hkey, h1, h2]

/-- C3: for every CombFilter and every Vibrato, processing the channelwise
concatenation of a list of equal-channel-count blocks in one `process` call
yields the channelwise concatenation of the per-block outputs of processing
the blocks in order on the same instance, and the same final state (output is
independent of block boundaries). -/
theorem effects_blockwise_invariance :
    (∀ (f : CombFilter) (nch : ℕ) (blocks : List (List (List ℚ))),
      (∀ b ∈ blocks, b.length = nch) → nch ≤ f.delay_lines.length →
      f.process (joinBlocks nch blocks) =
        (joinBlocks nch (CombFilter.processBlocks f blocks).1,
         (CombFilter.processBlocks f blocks).2)) ∧
    (∀ (v : Vibrato) (nch : ℕ) (blocks : List (List (List ℚ))),
      (∀ b ∈ blocks, b.length = nch) →
      v.delay_lines.length = v.lfos.length →
      nch ≤ (v.delay_lines.zip v.lfos).length →
      v.process (joinBlocks nch blocks) =
        (joinBlocks nch (Vibrato.processBlocks v blocks).1,
         (Vibrato.processBlocks v blocks).2)) :=
  ⟨combFilter_process_joinBlocks, vibrato_process_joinBlocks⟩

/-- Witness for C3 on a concrete comb filter, vibrato and block split. -/
theorem effects_blockwise_invariance_witness :
    ((∀ b ∈ [[[(1 : ℚ)]], [[2, 3]]], b.length = 1) ∧
      1 ≤ (CombFilter.new FilterType.FIR 1 1 1 1).delay_lines.length ∧
      (CombFilter.new FilterType.FIR 1 1 1 1).process
          (joinBlocks 1 [[[(1 : ℚ)]], [[2, 3]]]) =
        (joinBlocks 1 (CombFilter.processBlocks
            (CombFilter.new FilterType.FIR 1 1 1 1) [[[(1 : ℚ)]], [[2, 3]]]).1,
         (CombFilter.processBlocks
            (CombFilter.new FilterType.FIR 1 1 1 1) [[[(1 : ℚ)]], [[2, 3]]]).2)) ∧
    ((∀ b ∈ [[[(1 : ℚ)]], [[2, 3]]], b.length = 1) ∧
      ({ delay_lines := [RingBuffer.new 4], lfos := [LFO.new (fun _ => 0) 1 1 2 4], sample_rate := 2, delay := 1, depth := 0 : Vibrato }).delay_lines.length =
        ({ delay_lines := [RingBuffer.new 4], lfos := [LFO.new (fun _ => 0) 1 1 2 4], sample_rate := 2, delay := 1, depth := 0 : Vibrato }).lfos.length ∧
      ({ delay_lines := [RingBuffer.new 4], lfos := [LFO.new (fun _ => 0) 1 1 2 4], sample_rate := 2, delay := 1, depth := 0 : Vibrato }).process
          (joinBlocks 1 [[[(1 : ℚ)]], [[2, 3]]]) =
        (joinBlocks 1 (Vibrato.processBlocks { delay_lines := [RingBuffer.new 4], lfos := [LFO.new (fun _ => 0) 1 1 2 4], sample_rate := 2, delay := 1, depth := 0 } [[[(1 : ℚ)]], [[2, 3]]]).1,
         (Vibrato.processBlocks { delay_lines := [RingBuffer.new 4], lfos := [LFO.new (fun _ => 0) 1 1 2 4], sample_rate := 2, delay := 1, depth := 0 } [[[(1 : ℚ)]], [[2, 3]]]).2)) :=
  ⟨⟨by decide, by simp [CombFilter.new],
    effects_blockwise_invariance.1 (CombFilter.new FilterType.FIR 1 1 1 1) 1
      [[[(1 : ℚ)]], [[2, 3]]] (by decide) (by simp [CombFilter.new])⟩,
   ⟨by decide, rfl,
    effects_blockwise_invariance.2
      { delay_lines := [RingBuffer.new 4], lfos := [LFO.new (fun _ => 0) 1 1 2 4], sample_rate := 2, delay := 1, depth := 0 } 1
      [[[(1 : ℚ)]], [[2, 3]]] (by decide) rfl (by decide)⟩⟩

/-- C5 counterexample: with a delay line of 1 sample (as the claim states),
the unity-gain FIR comb filter fed the impulse block outputs
`[1,1,0,0,0,0,0,0,0,0]`, not the claimed `[1,1,1,1,1,0,0,0,0,0]`. -/
theorem combFilter_impulse_delay1_counterexample :
    ((CombFilter.new FilterType.FIR 1 1 1 1).process
        [[1, 0, 0, 0, 0, 0, 0, 0, 0, 0]]).1 ≠ [[1, 1, 1, 1, 1, 0, 0, 0, 0, 0]] := by
  have hc : ratToUsize ((1 : ℚ) * 1) = 1 := by
    norm_num [ratToUsize]
  have h : ((CombFilter.new FilterType.FIR 1 1 1 1).process
      [[1, 0, 0, 0, 0, 0, 0, 0, 0, 0]]).1 = [[1, 1, 0, 0, 0, 0, 0, 0, 0, 0]] := by
    simp only [CombFilter.new, CombFilter.process, hc]
    norm_num [CombFilter.processChannel, zipState, mapStateList, CombFilter.combStep,
      RingBuffer.new, RingBuffer.peek, RingBuffer.push, List.replicate, List.getD]
  rw [h]
  simp

/-- C5 amended: with the delay-line length the repository test actually
produces (0.0001 s at 44100 Hz, truncated to 4 samples), the unity-gain FIR
comb filter fed `[1,0,0,0,0,0,0,0,0,0]` outputs exactly
`[1,1,1,1,1,0,0,0,0,0]`, and the identically configured IIR filter outputs
exactly `[1,1,1,1,1,1,1,1,1,1]`. -/
theorem combFilter_impulse_response_amended :
    ((CombFilter.new FilterType.FIR (1/10000) 44100 1 1).process
        [[1, 0, 0, 0, 0, 0, 0, 0, 0, 0]]).1 = [[1, 1, 1, 1, 1, 0, 0, 0, 0, 0]] ∧
    ((CombFilter.new FilterType.IIR (1/10000) 44100 1 1).process
        [[1, 0, 0, 0, 0, 0, 0, 0, 0, 0]]).1 = [[1, 1, 1, 1, 1, 1, 1, 1, 1, 1]] := by
  have hc : ratToUsize ((1 : ℚ) / 10000 * 44100) = 4 := by
    norm_num [ratToUsize]
    rfl
  constructor
  · simp only [CombFilter.new, CombFilter.process, hc]
    norm_num [CombFilter.processChannel, zipState, mapStateList, CombFilter.combStep,
      RingBuffer.new, RingBuffer.peek, RingBuffer.push, List.replicate, List.getD]
  · simp only [CombFilter.new, CombFilter.process, hc]
    norm_num [CombFilter.processChannel, zipState, mapStateList, CombFilter.combStep,
      RingBuffer.new, RingBuffer.peek, RingBuffer.push, List.replicate, List.getD]

/-- C6: the invariant `depth ≤ delay` is enforced everywhere: construction
with `delay < depth` fails with an error (no object), a constructed object
satisfies the invariant, `set_param(Delay, v)` fails when `v < depth` and
`set_param(Depth, v)` fails when `v > delay` — in both failure cases the
state is returned unchanged — and every `set_param` preserves the invariant. -/
theorem vibrato_depth_le_delay_invariant :
    (∀ (sinq : ℕ → ℚ) (sr delay depth mf amp : ℚ) (ch : ℕ),
      delay < depth →
      Vibrato.new sinq sr delay depth mf amp ch =
        Except.error "Delay must be greater than or equal to depth") ∧
    (∀ (sinq : ℕ → ℚ) (sr delay depth mf amp : ℚ) (ch : ℕ) (vib : Vibrato),
      Vibrato.new sinq sr delay depth mf amp ch = Except.ok vib →
      vib.depth ≤ vib.delay) ∧
    (∀ (v : Vibrato) (val : ℚ), val < v.depth →
      v.set_param VibratoParam.Delay val =
        (Except.error "Delay must be greater than or equal to depth", v)) ∧
    (∀ (v : Vibrato) (val : ℚ), v.delay < val →
      v.set_param VibratoParam.Depth val =
        (Except.error "Depth must be less than or equal to delay", v)) ∧
    (∀ (v : Vibrato) (p : VibratoParam) (val : ℚ), v.depth ≤ v.delay →
      ((v.set_param p val).2).depth ≤ ((v.set_param p val).2).delay) := by
  refine ⟨?_, ?_, ?_, ?_, ?_⟩
  · intro sinq sr delay depth mf amp ch h
    simp [Vibrato.new, h]
  · intro sinq sr delay depth mf amp ch vib h
    unfold Vibrato.new at h
    by_cases hlt : delay < depth
    · rw [if_pos hlt] at h
      exact absurd h (by simp)
    · rw [if_neg hlt] at h
      simp only [Except.ok.injEq] at h
      subst h
      exact le_of_not_lt hlt
  · intro v val h
    simp [Vibrato.set_param, h]
  · intro v val h
    simp [Vibrato.set_param, h]
  · intro v p val h
    cases p with
    | SampleRate => exact h
    | Delay =>
      by_cases hv : val < v.depth
      · simp only [Vibrato.set_param, if_pos hv]
        exact h
      · simp only [Vibrato.set_param, if_neg hv]
        exact le_of_not_lt hv
    | Depth =>
      by_cases hv : v.delay < val
      · simp only [Vibrato.set_param, if_pos hv]
        exact h
      · simp only [Vibrato.set_param, if_neg hv]
        exact le_of_not_lt hv
    | ModulationFrequency => exact h

/-- Witness for C6 on a concrete failing construction and a concrete failing
parameter update. -/
theorem vibrato_depth_le_delay_invariant_witness :
    ((1 : ℚ) < 2 ∧
      Vibrato.new (fun _ => 0) 44100 1 2 5 1 1 =
        Except.error "Delay must be greater than or equal to depth") ∧
    ((0 : ℚ) < 1 ∧
      ({ delay_lines := [], lfos := [], sample_rate := 1, delay := 1, depth := 1 :
          Vibrato }).set_param VibratoParam.Delay 0 =
        (Except.error "Delay must be greater than or equal to depth",
         { delay_lines := [], lfos := [], sample_rate := 1, delay := 1, depth := 1 :
          Vibrato })) :=
  ⟨⟨by norm_num,
    vibrato_depth_le_delay_invariant.1 (fun _ => 0) 44100 1 2 5 1 1 (by norm_num)⟩,
   ⟨by norm_num,
    vibrato_depth_le_delay_invariant.2.2.1
      { delay_lines := [], lfos := [], sample_rate := 1, delay := 1, depth := 1 } 0
      (by norm_num)⟩⟩

/-- C7: `set_param(Gain, v)` succeeds exactly when `v ∈ [0,1]` (updating only
the gain) and `set_param(Delay, v)` succeeds exactly when the sample count
`(v * sample_rate) as usize` lies in `(0, capacity]` (reallocating every
channel's delay line fresh at that length); every rejection returns
`InvalidValue` carrying the parameter and value and leaves the filter
unchanged. -/
theorem combFilter_set_param_domains (f : CombFilter) (v : ℚ) :
    (0 ≤ v → v ≤ 1 →
      f.set_param FilterParam.Gain v = (Except.ok (), { f with gain := v })) ∧
    (¬ (0 ≤ v ∧ v ≤ 1) →
      f.set_param FilterParam.Gain v =
        (Except.error (CombError.InvalidValue FilterParam.Gain v), f)) ∧
    (0 < ratToUsize (v * f.sample_rate) →
      ratToUsize (v * f.sample_rate) ≤
        (f.delay_lines.headD (RingBuffer.new 0)).capacity →
      f.set_param FilterParam.Delay v =
        (Except.ok (),
         { f with delay_lines := f.delay_lines.map (fun _ => RingBuffer.new (ratToUsize (v * f.sample_rate))) })) ∧
    (¬ (0 < ratToUsize (v * f.sample_rate) ∧
        ratToUsize (v * f.sample_rate) ≤
          (f.delay_lines.headD (RingBuffer.new 0)).capacity) →
      f.set_param FilterParam.Delay v =
        (Except.error (CombError.InvalidValue FilterParam.Delay v), f)) := by
  refine ⟨?_, ?_, ?_, ?_⟩
  · intro h0 h1
    simp only [CombFilter.set_param, if_pos (And.intro h0 h1)]
  · intro h
    simp only [CombFilter.set_param, if_neg h]
  · intro h0 h1
    simp only [CombFilter.set_param, if_pos (And.intro h0 h1)]
  · intro h
    simp only [CombFilter.set_param, if_neg h]

/-- Witness for C7: an accepted and a rejected gain update on a concrete
filter. -/
theorem combFilter_set_param_domains_witness :
    ((0 : ℚ) ≤ 1/2 ∧ (1 : ℚ)/2 ≤ 1 ∧
      (CombFilter.new FilterType.FIR 1 2 1 0).set_param FilterParam.Gain (1/2) =
        (Except.ok (), { (CombFilter.new FilterType.FIR 1 2 1 0) with gain := 1/2 })) ∧
    (¬ ((0 : ℚ) ≤ 2 ∧ (2 : ℚ) ≤ 1) ∧
      (CombFilter.new FilterType.FIR 1 2 1 0).set_param FilterParam.Gain 2 =
        (Except.error (CombError.InvalidValue FilterParam.Gain 2),
         CombFilter.new FilterType.FIR 1 2 1 0)) :=
  ⟨⟨by norm_num, by norm_num,
    (combFilter_set_param_domains (CombFilter.new FilterType.FIR 1 2 1 0) (1/2)).1
      (by norm_num) (by norm_num)⟩,
   ⟨by norm_num,
    (combFilter_set_param_domains (CombFilter.new FilterType.FIR 1 2 1 0) 2).2.1
      (by norm_num)⟩⟩

/-- C8 (code bug): `CombFilter::reset` zeroes only the unused scratch `buffer`
field and `buffer_index`; it leaves every channel's delay line — contents and
cursors — untouched (so the claimed zeroing does not happen), while
`get_param(Gain)` and `get_param(Delay)` are indeed unchanged. The concrete
conjuncts show a filter whose delay line still holds the sample 1 after
`reset`. -/
theorem combFilter_reset_leaves_delay_lines :
    (∀ f : CombFilter,
      f.reset.delay_lines = f.delay_lines ∧
      f.reset.get_param FilterParam.Gain = f.get_param FilterParam.Gain ∧
      f.reset.get_param FilterParam.Delay = f.get_param FilterParam.Delay) ∧
    (((CombFilter.new FilterType.FIR 1 1 1 1).process [[1]]).2.reset.delay_lines.map
        (fun rb => rb.buffer) = [[1]] ∧
     ((CombFilter.new FilterType.FIR 1 1 1 1).process [[1]]).2.reset.delay_lines.map
        (fun rb => rb.buffer) ≠ [[0]]) := by
  refine ⟨fun f => ⟨rfl, rfl, rfl⟩, ?_, ?_⟩
  · have hc : ratToUsize ((1 : ℚ) * 1) = 1 := by
      norm_num [ratToUsize]
    simp only [CombFilter.new, CombFilter.process, CombFilter.reset, hc]
    norm_num [CombFilter.processChannel, zipState, mapStateList, CombFilter.combStep,
      RingBuffer.new, RingBuffer.peek, RingBuffer.push, List.replicate, List.getD]
  · have hc : ratToUsize ((1 : ℚ) * 1) = 1 := by
      norm_num [ratToUsize]
    simp only [CombFilter.new, CombFilter.process, CombFilter.reset, hc]
    norm_num [CombFilter.processChannel, zipState, mapStateList, CombFilter.combStep,
      RingBuffer.new, RingBuffer.peek, RingBuffer.push, List.replicate, List.getD]

/-- C9 counterexample: an LFO whose phase increment exceeds 1 (frequency 5 at
sample rate 2, increment 5/2) has phase 3/2 ∉ [0,1) after a single tick — the
single conditional subtraction under-wraps. -/
theorem lfo_phase_counterexample :
    ¬ (((LFO.new (fun _ => 0) 5 1 2 4).tickN 1).current_phase < 1) := by
  have h : ((LFO.new (fun _ => 0) 5 1 2 4).tickN 1).current_phase = 3/2 := by
    show (if (1 : ℚ) ≤ 0 + 5 / 2 then (0 : ℚ) + 5 / 2 - 1 else 0 + 5 / 2) = 3/2
    norm_num
  rw [h]
  norm_num

/-- C9 amended: provided the phase increment `frequency / sample_rate` lies in
`[0, 1]`, the current phase lies in `[0, 1)` after every sequence of ticks
from a fresh LFO; each tick adds the increment and subtracts 1 once exactly
when the sum reached or exceeded 1. -/
theorem lfo_phase_wraps_into_unit_interval
    (sinq : ℕ → ℚ) (frequency amplitude sample_rate : ℚ) (N n : ℕ)
    (h0 : 0 ≤ (LFO.new sinq frequency amplitude sample_rate N).phase_increment)
    (h1 : (LFO.new sinq frequency amplitude sample_rate N).phase_increment ≤ 1) :
    (0 ≤ ((LFO.new sinq frequency amplitude sample_rate N).tickN n).current_phase ∧
      ((LFO.new sinq frequency amplitude sample_rate N).tickN n).current_phase < 1) ∧
    (∀ l : LFO, (l.tick).2.current_phase =
      if 1 ≤ l.current_phase + l.phase_increment
      then l.current_phase + l.phase_increment - 1
      else l.current_phase + l.phase_increment) := by
  refine ⟨?_, fun l => rfl⟩
  have hinc : ∀ m, ((LFO.new sinq frequency amplitude sample_rate N).tickN m).phase_increment =
      (LFO.new sinq frequency amplitude sample_rate N).phase_increment := by
    intro m
    induction m with
    | zero => rfl
    | succ m ih => exact ih
  induction n with
  | zero =>
    constructor
    · exact le_refl 0
    · show (0 : ℚ) < 1
      norm_num
  | succ n ih =>
    obtain ⟨ihl, ihr⟩ := ih
    have hstep : (((LFO.new sinq frequency amplitude sample_rate N).tickN (n + 1)).current_phase) =
        if 1 ≤ ((LFO.new sinq frequency amplitude sample_rate N).tickN n).current_phase +
            ((LFO.new sinq frequency amplitude sample_rate N).tickN n).phase_increment
        then ((LFO.new sinq frequency amplitude sample_rate N).tickN n).current_phase +
            ((LFO.new sinq frequency amplitude sample_rate N).tickN n).phase_increment - 1
        else ((LFO.new sinq frequency amplitude sample_rate N).tickN n).current_phase +
            ((LFO.new sinq frequency amplitude sample_rate N).tickN n).phase_increment := rfl
    rw [hstep, hinc n]
    by_cases hc : (1 : ℚ) ≤ ((LFO.new sinq frequency amplitude sample_rate N).tickN n).current_phase +
        (LFO.new sinq frequency amplitude sample_rate N).phase_increment
    · rw [if_pos hc]
      constructor <;> linarith
    · rw [if_neg hc]
      push_neg at hc
      constructor <;> linarith

/-- Witness for C9 at increment 1/2 and three ticks. -/
theorem lfo_phase_wraps_into_unit_interval_witness :
    (0 ≤ (LFO.new (fun _ => 0) 1 1 2 4).phase_increment ∧
      (LFO.new (fun _ => 0) 1 1 2 4).phase_increment ≤ 1) ∧
    ((0 ≤ ((LFO.new (fun _ => 0) 1 1 2 4).tickN 3).current_phase ∧
      ((LFO.new (fun _ => 0) 1 1 2 4).tickN 3).current_phase < 1) ∧
    (∀ l : LFO, (l.tick).2.current_phase =
      if 1 ≤ l.current_phase + l.phase_increment
      then l.current_phase + l.phase_increment - 1
      else l.current_phase + l.phase_increment)) :=
  ⟨⟨by show (0 : ℚ) ≤ 1 / 2; norm_num, by show (1 : ℚ) / 2 ≤ 1; norm_num⟩,
   lfo_phase_wraps_into_unit_interval (fun _ => 0) 1 1 2 4 3
     (by show (0 : ℚ) ≤ 1 / 2; norm_num) (by show (1 : ℚ) / 2 ≤ 1; norm_num)⟩

/-- C10: `CombFilter::new` truncates `max_delay_secs * sample_rate` toward
zero to obtain the delay-line capacity, `get_param(Delay)` returns that
capacity divided by the sample rate, and whenever the product is not an
integer the returned delay is strictly less than the `max_delay_secs` passed
in (the seconds→samples→seconds round trip is not the identity). -/
theorem combFilter_new_delay_truncation
    (ft : FilterType) (secs sr g : ℚ) (nch : ℕ)
    (hsr : 0 < sr) (hsecs : 0 ≤ secs) (hch : 0 < nch) :
    ((CombFilter.new ft secs sr nch g).delay_lines.headD (RingBuffer.new 0)).capacity =
      Int.toNat ⌊secs * sr⌋ ∧
    (CombFilter.new ft secs sr nch g).get_param FilterParam.Delay =
      ((Int.toNat ⌊secs * sr⌋ : ℕ) : ℚ) / sr ∧
    ((⌊secs * sr⌋ : ℚ) ≠ secs * sr →
      (CombFilter.new ft secs sr nch g).get_param FilterParam.Delay < secs) := by
  obtain ⟨m, hm⟩ : ∃ m, nch = m + 1 := ⟨nch - 1, by omega⟩
  have hhead : (CombFilter.new ft secs sr nch g).delay_lines.headD (RingBuffer.new 0) =
      RingBuffer.new (ratToUsize (secs * sr)) := by
    show (List.replicate nch (RingBuffer.new (ratToUsize (secs * sr)))).headD
      (RingBuffer.new 0) = _
    rw [hm, List.replicate_succ, List.headD_cons]
  have hcap : ((CombFilter.new ft secs sr nch g).delay_lines.headD
      (RingBuffer.new 0)).capacity = Int.toNat ⌊secs * sr⌋ := by
    rw [hhead]
    rfl
  have hget : (CombFilter.new ft secs sr nch g).get_param FilterParam.Delay =
      ((Int.toNat ⌊secs * sr⌋ : ℕ) : ℚ) / sr := by
    show (((CombFilter.new ft secs sr nch g).delay_lines.headD
      (RingBuffer.new 0)).capacity : ℚ) / sr = _
    rw [hcap]
  refine ⟨hcap, hget, ?_⟩
  intro hne
  rw [hget, div_lt_iff₀ hsr]
  have hprod : 0 ≤ secs * sr := mul_nonneg hsecs (le_of_lt hsr)
  have hfl0 : 0 ≤ ⌊secs * sr⌋ := Int.floor_nonneg.mpr hprod
  have hz : ((Int.toNat ⌊secs * sr⌋ : ℕ) : ℤ) = ⌊secs * sr⌋ :=
    Int.toNat_of_nonneg hfl0
  have hcast : ((Int.toNat ⌊secs * sr⌋ : ℕ) : ℚ) = ((⌊secs * sr⌋ : ℤ) : ℚ) := by
    exact_mod_cast congrArg (fun z : ℤ => (z : ℚ)) hz
  rw [hcast]
  exact lt_of_le_of_ne (Int.floor_le _) hne

/-- Witness for C10 at 0.5 seconds and 3 Hz (product 3/2, capacity 1, returned
delay 1/3 < 1/2). -/
theorem combFilter_new_delay_truncation_witness :
    ((0 : ℚ) < 3 ∧ (0 : ℚ) ≤ 1/2 ∧ (0 : ℕ) < 1 ∧
      (⌊(1 : ℚ)/2 * 3⌋ : ℚ) ≠ (1 : ℚ)/2 * 3) ∧
    (((CombFilter.new FilterType.FIR (1/2) 3 1 0).delay_lines.headD
        (RingBuffer.new 0)).capacity = Int.toNat ⌊(1 : ℚ)/2 * 3⌋ ∧
      (CombFilter.new FilterType.FIR (1/2) 3 1 0).get_param FilterParam.Delay =
        ((Int.toNat ⌊(1 : ℚ)/2 * 3⌋ : ℕ) : ℚ) / 3 ∧
      ((⌊(1 : ℚ)/2 * 3⌋ : ℚ) ≠ (1 : ℚ)/2 * 3 →
        (CombFilter.new FilterType.FIR (1/2) 3 1 0).get_param FilterParam.Delay <
          1/2)) :=
  ⟨⟨by norm_num, by norm_num, by norm_num, by norm_num⟩,
   combFilter_new_delay_truncation FilterType.FIR (1/2) 3 0 1
     (by norm_num) (by norm_num) (by norm_num)⟩
